import Mathlib

/-!
Verification of the transfer-function editor core (DLR-SC/transfer-function-editor).

Shallow embedding of the stop collections, the mutation protocol
(`addControlPoint`, the drag-move handler, `setAlphaStops`, `setColorMap`,
`setBins`), the sampling functions (`getAlpha`, `getColorFromColorMapAt`,
`getColorMapBins`) and the listener registration (`addListener`).
Positions and alpha values are modelled as rationals; JavaScript `throw`
and division by zero are modelled with `Option`.
-/

/-- `AlphaStop` from `Types.ts`: a stop of the opacity curve. -/
structure AlphaStopQ where
  stop : ℚ
  alpha : ℚ
deriving DecidableEq

/-- `ColorStop` from `Types.ts`: a stop of the color map; the color is a CSS color string. -/
structure ColorStopQ where
  stop : ℚ
  color : String
deriving DecidableEq

/-- `InterpolationMethod` from `Types.ts`. -/
inductive InterpolationMethodQ where
  | RGB | HSL | HSL_LONG | HSV | HSV_LONG | HCL | HCL_LONG | LAB | CUBEHELIX | CUBEHELIX_LONG
deriving DecidableEq

/-- `ColorMap` from `Types.ts`. The optional fields `discrete?` and `bins?` are modelled
with `Bool` (absent behaves as falsy) and `Option ℤ` (`none` = `undefined`). -/
structure ColorMapQ where
  colorStops : List ColorStopQ
  interpolationMethod : InterpolationMethodQ
  discrete : Bool
  bins : Option ℤ
deriving DecidableEq

/-- JavaScript truthiness of the `bins` field: `undefined` and `0` are falsy. -/
def ColorMapQ.binsTruthy (cm : ColorMapQ) : Bool :=
  match cm.bins with
  | none => false
  | some b => b != 0

/-- The numeric value of `colorMap.bins || 0`. -/
def ColorMapQ.binsOrZero (cm : ColorMapQ) : ℤ :=
  (cm.bins).getD 0

/-- The comparator `(a, b) => a.stop - b.stop` of `sortControlPoints`, as an order. -/
def stopLE (a b : AlphaStopQ) : Prop := a.stop ≤ b.stop

instance : DecidableRel stopLE := fun a b => inferInstanceAs (Decidable (a.stop ≤ b.stop))

instance : IsTotal AlphaStopQ stopLE := ⟨fun a b => le_total a.stop b.stop⟩

instance : IsTrans AlphaStopQ stopLE := ⟨fun _ _ _ h h' => le_trans h h'⟩

/-- `TransparencyEditor.sortControlPoints`: `this.alphaStops.sort((a, b) => a.stop - b.stop)`,
modelled as a stable sort by `stop`. -/
def sortControlPoints (l : List AlphaStopQ) : List AlphaStopQ :=
  List.insertionSort stopLE l

/-- `TransparencyEditor.addControlPoint(stop, alpha)`:
`this.alphaStops.push({stop, alpha}); this.sortControlPoints();`.
The source performs no range check on `stop`. -/
def addControlPoint (l : List AlphaStopQ) (stop alpha : ℚ) : List AlphaStopQ :=
  sortControlPoints (l ++ [⟨stop, alpha⟩])

/-- `Number.EPSILON` = 2^-52, the `ε` of the drag-move neighbor clamping. -/
def eps : ℚ := 1 / 2 ^ 52

/-- The mousemove drag handler of `TransparencyEditor.addEventListeners`
(a "moveTo" of the stop at `dragIndex`): the first and last stop only get a
new alpha; an interior stop is moved to
`Math.max(left.stop + ε, Math.min(right.stop - ε, stop))` and gets the new alpha.
Indices outside the collection cannot occur in the source (the index comes
from hit testing); the model leaves the collection unchanged there. -/
def moveTo (l : List AlphaStopQ) (i : ℕ) (stop alpha : ℚ) : List AlphaStopQ :=
  if i = 0 ∨ i = l.length - 1 then
    match l[i]? with
    | some c => l.set i ⟨c.stop, alpha⟩
    | none => l
  else
    match l[i-1]?, l[i+1]? with
    | some cl, some cr =>
      l.set i ⟨max (cl.stop + eps) (min (cr.stop - eps) stop), alpha⟩
    | _, _ => l

/-- An editing operation on the alpha-stop collection: `add` (public
`addControlPoint`) or `move` (a drag-move step). -/
inductive EditOp where
  | add (stop alpha : ℚ)
  | move (i : ℕ) (stop alpha : ℚ)

/-- Apply one editing operation. -/
def applyOp (l : List AlphaStopQ) : EditOp → List AlphaStopQ
  | .add p a => addControlPoint l p a
  | .move i p a => moveTo l i p a

/-- Apply a sequence of editing operations, first operation first. -/
def applyOps (l : List AlphaStopQ) (ops : List EditOp) : List AlphaStopQ :=
  ops.foldl applyOp l

/-- The stops are sorted ascending by position (adjacent pairs compare `≤`). -/
def sortedByStop (l : List AlphaStopQ) : Prop :=
  l.Chain' stopLE

instance : DecidablePred sortedByStop := fun l =>
  inferInstanceAs (Decidable (l.Chain' stopLE))

theorem sortedByStop_sortControlPoints (l : List AlphaStopQ) :
    sortedByStop (sortControlPoints l) :=
  List.chain'_iff_pairwise.mpr (List.sorted_insertionSort stopLE l)

theorem stopLE_of_chain'_getElem? {l : List AlphaStopQ} (h : l.Chain' stopLE)
    {j : ℕ} {x y : AlphaStopQ} (hx : l[j]? = some x) (hy : l[j+1]? = some y) :
    x.stop ≤ y.stop := by
  have hjy : j + 1 < l.length := by
    by_contra hc
    rw [List.getElem?_eq_none (by omega)] at hy
    exact Option.noConfusion hy
  have hjx : j < l.length := by omega
  rw [List.getElem?_eq_getElem hjx] at hx
  rw [List.getElem?_eq_getElem hjy] at hy
  have := List.chain'_iff_get.mp h j (by omega)
  simp only [List.get_eq_getElem] at this
  rw [Option.some_inj] at hx hy
  rw [hx, hy] at this
  exact this

theorem chain'_stopLE_set {l : List AlphaStopQ} {i : ℕ} {v : AlphaStopQ}
    (h : l.Chain' stopLE)
    (hprev : ∀ x, l[i-1]? = some x → i ≠ 0 → x.stop ≤ v.stop)
    (hnext : ∀ x, l[i+1]? = some x → v.stop ≤ x.stop) :
    (l.set i v).Chain' stopLE := by
  rw [List.chain'_iff_get] at h ⊢
  intro j hj
  simp only [List.length_set] at hj
  simp only [List.get_eq_getElem, List.getElem_set]
  by_cases h1 : i = j
  · subst h1
    rw [if_pos rfl, if_neg (by omega)]
    exact hnext _ (List.getElem?_eq_getElem (by omega))
  · rw [if_neg h1]
    by_cases h2 : i = j + 1
    · rw [if_pos h2]
      have hji : j = i - 1 := by omega
      subst hji
      exact hprev _ (List.getElem?_eq_getElem (by omega)) (by omega)
    · rw [if_neg h2]
      exact h j hj

theorem eps_pos : 0 < eps := by norm_num [eps]

theorem sortedByStop_moveTo {l : List AlphaStopQ} (i : ℕ) (p a : ℚ)
    (h : sortedByStop l)
    (hgap : ∀ cl cr, ¬(i = 0 ∨ i = l.length - 1) →
      l[i-1]? = some cl → l[i+1]? = some cr → cl.stop + eps ≤ cr.stop) :
    sortedByStop (moveTo l i p a) := by
  unfold moveTo
  by_cases hb : i = 0 ∨ i = l.length - 1
  · rw [if_pos hb]
    cases hc : l[i]? with
    | none => exact h
    | some c =>
      apply chain'_stopLE_set h
      · intro x hx hi0
        have heq : i - 1 + 1 = i := by omega
        have h1 : x.stop ≤ c.stop :=
          stopLE_of_chain'_getElem? h hx (by rw [heq]; exact hc)
        exact h1
      · intro x hx
        have h2 : c.stop ≤ x.stop := stopLE_of_chain'_getElem? h hc hx
        exact h2
  · rw [if_neg hb]
    cases hcl : l[i-1]? with
    | none => exact h
    | some cl =>
      cases hcr : l[i+1]? with
      | none => exact h
      | some cr =>
        apply chain'_stopLE_set h
        · intro x hx _
          rw [hcl, Option.some_inj] at hx
          subst hx
          show cl.stop ≤ max (cl.stop + eps) (min (cr.stop - eps) p)
          calc cl.stop ≤ cl.stop + eps := by linarith [eps_pos]
            _ ≤ max (cl.stop + eps) (min (cr.stop - eps) p) := le_max_left _ _
        · intro x hx
          rw [hcr, Option.some_inj] at hx
          subst hx
          show max (cl.stop + eps) (min (cr.stop - eps) p) ≤ cr.stop
          apply max_le
          · exact hgap cl cr hb hcl hcr
          · calc min (cr.stop - eps) p ≤ cr.stop - eps := min_le_left _ _
              _ ≤ cr.stop := by linarith [eps_pos]

/-- Gap condition under which a single drag-move step preserves the sort order:
interior moves need the two neighbors of the moved stop to be at least `ε` apart. -/
def gapOKb (l : List AlphaStopQ) : EditOp → Bool
  | .add _ _ => true
  | .move i _ _ =>
    if i = 0 ∨ i = l.length - 1 then true
    else
      match l[i-1]?, l[i+1]? with
      | some cl, some cr => decide (cl.stop + eps ≤ cr.stop)
      | _, _ => true

/-- The gap condition along a whole operation sequence, each operation judged in the
state it is applied to. -/
def gapsOKb (l : List AlphaStopQ) : List EditOp → Bool
  | [] => true
  | op :: rest => gapOKb l op && gapsOKb (applyOp l op) rest

theorem sortedByStop_applyOp {l : List AlphaStopQ} (op : EditOp)
    (h : sortedByStop l) (hgap : gapOKb l op = true) :
    sortedByStop (applyOp l op) := by
  cases op with
  | add p a => exact sortedByStop_sortControlPoints _
  | move i p a =>
    apply sortedByStop_moveTo i p a h
    intro cl cr hb hcl hcr
    have hgap' :
        (if i = 0 ∨ i = l.length - 1 then true
         else
           match l[i-1]?, l[i+1]? with
           | some cl, some cr => decide (cl.stop + eps ≤ cr.stop)
           | _, _ => true) = true := hgap
    rw [if_neg hb, hcl, hcr] at hgap'
    exact of_decide_eq_true hgap'

/-- C1 (amended): starting from a collection sorted ascending by position, every
sequence of `add` (push + sort) and drag-move operations keeps the stops sorted
ascending by position, provided every interior drag-move finds its two
bracketing neighbors at least `ε` apart (the `gapsOKb` condition); without that
proviso a drag-move between closer neighbors can break the order. -/
theorem c1_sort_invariant (ops : List EditOp) (l : List AlphaStopQ)
    (h : sortedByStop l) (hgaps : gapsOKb l ops = true) :
    sortedByStop (applyOps l ops) := by
  induction ops generalizing l with
  | nil => exact h
  | cons op rest ih =>
    have hsplit : gapOKb l op = true ∧ gapsOKb (applyOp l op) rest = true := by
      have hand : (gapOKb l op && gapsOKb (applyOp l op) rest) = true := hgaps
      simp only [Bool.and_eq_true] at hand
      exact hand
    show sortedByStop (applyOps (applyOp l op) rest)
    exact ih _ (sortedByStop_applyOp op h hsplit.1) hsplit.2

/-- C1 witness: the concrete sequence add(0.5, 0.5) then drag-move of the middle
stop to 0.9 keeps [0,1]-anchored stops sorted. -/
theorem c1_sort_invariant_witness :
    sortedByStop (applyOps [⟨0,0⟩, ⟨1,1⟩]
      [.add (1/2) (1/2), .move 1 (9/10) (1/5)]) :=
  c1_sort_invariant _ _
    (by norm_num [sortedByStop, List.chain'_cons, stopLE])
    (by norm_num [gapsOKb, gapOKb, applyOp, addControlPoint, sortControlPoints,
      List.insertionSort, List.orderedInsert, stopLE, eps])

/-- C1 counterexample: from the sorted collection [(0,0),(1,1)], three adds at
position 0.5 followed by a drag-move of the stop at index 2 leave the array
unsorted: the drag handler clamps the moved position to 0.5 + ε, which exceeds
the right neighbor 0.5, and never re-sorts. -/
theorem c1_counterexample :
    sortedByStop [(⟨0,0⟩ : AlphaStopQ), ⟨1,1⟩] ∧
    ¬ sortedByStop (applyOps [⟨0,0⟩, ⟨1,1⟩]
        [.add (1/2) 0, .add (1/2) 0, .add (1/2) 0, .move 2 (1/2) 0]) := by
  constructor
  · norm_num [sortedByStop, List.chain'_cons, stopLE]
  · norm_num [applyOps, applyOp, addControlPoint, sortControlPoints,
      List.insertionSort, List.orderedInsert, stopLE, moveTo, eps,
      sortedByStop, List.chain'_cons]

/-- C2 (amended): a drag-move of an interior stop whose bracketing neighbors are
more than `ε` apart moves the stop to the clamp value
max(left + ε, min(right − ε, requested)) and satisfies strict no-crossing:
left < moved < right. When the neighbors are at most `ε` apart the clamp can
land on or beyond the right neighbor. -/
theorem c2_no_crossing (l : List AlphaStopQ) (i : ℕ) (p a : ℚ) (cl cr : AlphaStopQ)
    (h0 : i ≠ 0) (hi : i + 1 < l.length)
    (hcl : l[i-1]? = some cl) (hcr : l[i+1]? = some cr)
    (hgap : cl.stop + eps < cr.stop) :
    (moveTo l i p a)[i-1]? = some cl ∧
    (moveTo l i p a)[i+1]? = some cr ∧
    ∃ c, (moveTo l i p a)[i]? = some c ∧
      c.stop = max (cl.stop + eps) (min (cr.stop - eps) p) ∧
      cl.stop < c.stop ∧ c.stop < cr.stop := by
  have hb : ¬ (i = 0 ∨ i = l.length - 1) := by
    push_neg
    exact ⟨h0, by omega⟩
  have hmv : moveTo l i p a =
      l.set i ⟨max (cl.stop + eps) (min (cr.stop - eps) p), a⟩ := by
    unfold moveTo
    rw [if_neg hb, hcl, hcr]
  rw [hmv]
  refine ⟨?_, ?_,
    ⟨⟨max (cl.stop + eps) (min (cr.stop - eps) p), a⟩, ?_, rfl, ?_, ?_⟩⟩
  · rw [List.getElem?_set_ne (by omega)]
    exact hcl
  · rw [List.getElem?_set_ne (by omega)]
    exact hcr
  · exact List.getElem?_set_self (by omega)
  · have hlt : cl.stop < cl.stop + eps := by linarith [eps_pos]
    exact lt_of_lt_of_le hlt (le_max_left _ _)
  · apply max_lt hgap
    have hle : min (cr.stop - eps) p ≤ cr.stop - eps := min_le_left _ _
    linarith [eps_pos]

/-- C2 witness: dragging the middle stop of [(0,0),(0.5,0.5),(1,1)] to 0.9 keeps
it strictly between its neighbors. -/
theorem c2_no_crossing_witness :
    (moveTo [⟨0,0⟩, ⟨1/2,1/2⟩, ⟨1,1⟩] 1 (9/10) (1/5))[0]? = some ⟨0,0⟩ ∧
    (moveTo [⟨0,0⟩, ⟨1/2,1/2⟩, ⟨1,1⟩] 1 (9/10) (1/5))[2]? = some ⟨1,1⟩ ∧
    ∃ c, (moveTo [⟨0,0⟩, ⟨1/2,1/2⟩, ⟨1,1⟩] 1 (9/10) (1/5))[1]? = some c ∧
      c.stop = max ((0:ℚ) + eps) (min (1 - eps) (9/10)) ∧
      (0:ℚ) < c.stop ∧ c.stop < 1 :=
  c2_no_crossing [⟨0,0⟩, ⟨1/2,1/2⟩, ⟨1,1⟩] 1 (9/10) (1/5) ⟨0,0⟩ ⟨1,1⟩
    (by norm_num) (by norm_num) (by norm_num) (by norm_num) (by norm_num [eps])

/-- C2 counterexample: the stops (0, ε/4, ε/2, 1) are strictly increasing, yet
dragging index 1 to position 0 clamps it to 0 + ε, which lies beyond its right
neighbor ε/2: the moved stop crosses, refuting unconditional no-crossing. -/
theorem c2_counterexample :
    List.Chain' (fun x y : AlphaStopQ => x.stop < y.stop)
      [⟨0,0⟩, ⟨eps/4, 0⟩, ⟨eps/2, 0⟩, ⟨1,1⟩] ∧
    (moveTo [⟨0,0⟩, ⟨eps/4, 0⟩, ⟨eps/2, 0⟩, ⟨1,1⟩] 1 0 0).map AlphaStopQ.stop
      = [0, eps, eps/2, 1] ∧
    ¬ (eps < eps/2) := by
  refine ⟨?_, ?_, by norm_num [eps]⟩
  · norm_num [List.chain'_cons, eps]
  · norm_num [moveTo, eps]

theorem set_getElem?_eq_self {α : Type} :
    ∀ (l : List α) (i : ℕ) (x : α), l[i]? = some x → l.set i x = l
  | [], _, _, h => by simp at h
  | a :: t, 0, x, h => by
    simp only [List.getElem?_cons_zero, Option.some_inj] at h
    simp [List.set, h]
  | a :: t, i+1, x, h => by
    simp only [List.getElem?_cons_succ] at h
    simp [List.set, set_getElem?_eq_self t i x h]

/-- C8 (amended): a drag-move targeting index 0 or the last index changes only the
target stop's alpha: every stop keeps its position (so a boundary stop keeps
0 resp. 1 exactly when it sat there), all other stops are unchanged, and the
target's position field is carried over unchanged. -/
theorem c8_boundary_pinning (l : List AlphaStopQ) (i : ℕ) (p a : ℚ)
    (hb : i = 0 ∨ i = l.length - 1) :
    (moveTo l i p a).map AlphaStopQ.stop = l.map AlphaStopQ.stop ∧
    (∀ j, j ≠ i → (moveTo l i p a)[j]? = l[j]?) ∧
    (∀ c, l[i]? = some c → (moveTo l i p a)[i]? = some ⟨c.stop, a⟩) := by
  unfold moveTo
  rw [if_pos hb]
  cases hc : l[i]? with
  | none =>
    exact ⟨rfl, fun _ _ => rfl, fun c h => Option.noConfusion h⟩
  | some c =>
    have hlen : i < l.length := by
      by_contra hcon
      rw [List.getElem?_eq_none (by omega)] at hc
      exact Option.noConfusion hc
    refine ⟨?_, ?_, ?_⟩
    · rw [List.map_set]
      apply set_getElem?_eq_self
      rw [List.getElem?_map, hc]
      rfl
    · intro j hj
      exact List.getElem?_set_ne (Ne.symm hj)
    · intro c' hc'
      rw [Option.some_inj] at hc'
      subst hc'
      exact List.getElem?_set_self hlen

/-- C8 witness: a drag-move of the first stop of [(0,0),(1,1)] keeps both
positions and only rewrites the target alpha. -/
theorem c8_boundary_pinning_witness :
    (moveTo [⟨0,0⟩, ⟨1,1⟩] 0 (7/10) (3/10)).map AlphaStopQ.stop
      = [(⟨0,0⟩ : AlphaStopQ), ⟨1,1⟩].map AlphaStopQ.stop ∧
    (∀ j, j ≠ 0 →
      (moveTo [⟨0,0⟩, ⟨1,1⟩] 0 (7/10) (3/10))[j]? = [(⟨0,0⟩ : AlphaStopQ), ⟨1,1⟩][j]?) ∧
    (∀ c, [(⟨0,0⟩ : AlphaStopQ), ⟨1,1⟩][(0:ℕ)]? = some c →
      (moveTo [⟨0,0⟩, ⟨1,1⟩] 0 (7/10) (3/10))[(0:ℕ)]? = some ⟨c.stop, 3/10⟩) :=
  c8_boundary_pinning [⟨0,0⟩, ⟨1,1⟩] 0 (7/10) (3/10) (Or.inl rfl)

/-- C8 counterexample: when the first stop sits at position 0.2 (reachable via
`setAlphaStops`), a drag-move of index 0 leaves its position at 0.2 — not at the
boundary value 0 the claim asserts. -/
theorem c8_counterexample :
    (moveTo [⟨(1:ℚ)/5, 0⟩, ⟨1, 1⟩] 0 (7/10) (3/10)).map AlphaStopQ.stop
      = [1/5, 1] ∧ ((1:ℚ)/5 ≠ 0) := by
  constructor
  · norm_num [moveTo]
  · norm_num

/-- C4 (amended): `addControlPoint` performs no range validation: for every
position, also one outside [0,1], the stop is appended and the collection
re-sorted; the collection always grows by one and contains the new stop.
(The interactive path pre-clamps positions via `pixelToNormalized`, but the
public operation itself never rejects.) -/
theorem c4_add_no_range_check (l : List AlphaStopQ) (p a : ℚ) :
    (addControlPoint l p a).length = l.length + 1 ∧
    (⟨p, a⟩ : AlphaStopQ) ∈ addControlPoint l p a := by
  constructor
  · unfold addControlPoint sortControlPoints
    rw [(List.perm_insertionSort stopLE _).length_eq]
    simp
  · unfold addControlPoint sortControlPoints
    rw [(List.perm_insertionSort stopLE _).mem_iff]
    simp

/-- C4 counterexample: adding a stop at position 2 — outside [0,1] — is not
rejected: the collection changes and now contains a stop at 2. -/
theorem c4_counterexample :
    addControlPoint [⟨0,0⟩, ⟨1,1⟩] 2 0 = [⟨0,0⟩, ⟨1,1⟩, ⟨2,0⟩] ∧
    addControlPoint [⟨0,0⟩, ⟨1,1⟩] 2 0 ≠ [⟨0,0⟩, ⟨1,1⟩] ∧
    ¬ ((2:ℚ) ≤ 1) := by
  have h1 : addControlPoint [⟨0,0⟩, ⟨1,1⟩] 2 0 = [⟨0,0⟩, ⟨1,1⟩, ⟨2,0⟩] := by
    norm_num [addControlPoint, sortControlPoints, List.insertionSort,
      List.orderedInsert, stopLE]
  refine ⟨h1, ?_, by norm_num⟩
  rw [h1]
  simp

/-- `TransferFunction` as returned by `TransparencyEditor.getTransferFunction` in
`src/TransparencyEditor.ts` (alpha stops plus a color-stop list). -/
structure TransferFunctionQ where
  alphaStops : List AlphaStopQ
  colorMap : List ColorStopQ
deriving DecidableEq

/-- The observable state of a `TransparencyEditor` (`src/TransparencyEditor.ts`):
the alpha stops (field `transferFunction`), the color map, and the listener
registry (`callbacks` map with its `callbackCounter`). Callbacks are opaque
values of a parameter type `κ`. -/
structure TransparencyEditorState (κ : Type) where
  transferFunction : List AlphaStopQ
  colorMap : List ColorStopQ
  callbacks : List (ℕ × κ)
  callbackCounter : ℕ

/-- `TransparencyEditor.getTransferFunction`. -/
def getTransferFunction {κ : Type} (st : TransparencyEditorState κ) : TransferFunctionQ :=
  { alphaStops := st.transferFunction, colorMap := st.colorMap }

/-- `TransparencyEditor.setAlphaStops(alphaStops)`: `this.transferFunction = alphaStops`
followed by range update, notification and redraw — no validation of the argument. -/
def setAlphaStops {κ : Type} (alphaStops : List AlphaStopQ)
    (st : TransparencyEditorState κ) : TransparencyEditorState κ :=
  { st with transferFunction := alphaStops }

/-- `TransparencyEditor.addListener(callback)`: draws a fresh id from
`callbackCounter++`, stores the callback, and invokes it synchronously once with
the current transfer function before returning the id. The third component
records the synchronous invocations performed by the call (callback, argument). -/
def addListener {κ : Type} (cb : κ) (st : TransparencyEditorState κ) :
    ℕ × TransparencyEditorState κ × List (κ × TransferFunctionQ) :=
  (st.callbackCounter,
   { st with
     callbacks := st.callbacks ++ [(st.callbackCounter, cb)],
     callbackCounter := st.callbackCounter + 1 },
   [(cb, getTransferFunction st)])

/-- The comparator of `ColorMapEditor.sortControlPoints`, as an order on color stops. -/
def colorStopLE (a b : ColorStopQ) : Prop := a.stop ≤ b.stop

instance : DecidableRel colorStopLE := fun a b => inferInstanceAs (Decidable (a.stop ≤ b.stop))

instance : IsTotal ColorStopQ colorStopLE := ⟨fun a b => le_total a.stop b.stop⟩

instance : IsTrans ColorStopQ colorStopLE := ⟨fun _ _ _ h h' => le_trans h h'⟩

/-- `ColorMapEditor.sortControlPoints`: stable sort of the color stops by `stop`. -/
def sortColorStops (l : List ColorStopQ) : List ColorStopQ :=
  List.insertionSort colorStopLE l

/-- The observable data state of a `ColorMapEditor` (`src/ColorMapEditor.ts`). -/
structure ColorMapEditorState where
  colorStops : List ColorStopQ
  interpolationMethod : InterpolationMethodQ
  discrete : Bool
  bins : ℤ
deriving DecidableEq

/-- `ColorMapEditor.setColorMap(colorMap)`: adopts the argument unconditionally —
stops are sorted, `bins` becomes `Math.max(colorMap.bins || 0, 0)` — with no
validation of the stop count. -/
def setColorMap (cm : ColorMapQ) (st : ColorMapEditorState) : ColorMapEditorState :=
  { colorStops := sortColorStops cm.colorStops,
    interpolationMethod := cm.interpolationMethod,
    discrete := cm.discrete,
    bins := max cm.binsOrZero 0 }

/-- `ColorMapEditor.setBins(bins)`: `this.bins = Math.max(bins, 0)`. -/
def setBins (b : ℤ) (st : ColorMapEditorState) : ColorMapEditorState :=
  { st with bins := max b 0 }

/-- `ColorMapEditor.getColorMap()`: `discrete: this.discrete || undefined` and
`bins: this.discrete ? this.bins : undefined`. -/
def ColorMapEditorState.getColorMap (st : ColorMapEditorState) : ColorMapQ :=
  { colorStops := st.colorStops,
    interpolationMethod := st.interpolationMethod,
    discrete := st.discrete,
    bins := if st.discrete then some st.bins else none }

/-- A concrete transparency-editor state used by witnesses. -/
def te0 : TransparencyEditorState Unit :=
  { transferFunction := [⟨0,1⟩, ⟨1/2,1/2⟩, ⟨1,0⟩],
    colorMap := [⟨0, "black"⟩, ⟨1, "black"⟩],
    callbacks := [],
    callbackCounter := 0 }

/-- A concrete color-map-editor state used by witnesses. -/
def cme0 : ColorMapEditorState :=
  { colorStops := [⟨0, "green"⟩, ⟨1/2, "yellow"⟩, ⟨1, "red"⟩],
    interpolationMethod := .HSL,
    discrete := false,
    bins := 7 }

/-- C3 (amended): the bulk replacements perform no validation: `setAlphaStops`
adopts any argument — even one with fewer than 2 stops — as the new collection,
and `setColorMap` adopts the supplied stops (sorted) with `bins` clamped to
`max(bins || 0, 0)`; the prior state is not retained. -/
theorem c3_bulk_replacement_unvalidated (κ : Type) (xs : List AlphaStopQ)
    (st : TransparencyEditorState κ) (cm : ColorMapQ) (cst : ColorMapEditorState)
    (hlen : xs.length < 2) :
    (setAlphaStops xs st).transferFunction = xs ∧
    (setColorMap cm cst).colorStops = sortColorStops cm.colorStops ∧
    (setColorMap cm cst).discrete = cm.discrete ∧
    (setColorMap cm cst).bins = max cm.binsOrZero 0 :=
  ⟨rfl, rfl, rfl, rfl⟩

/-- C3 witness: replacing with the empty stop list and with a one-stop color map
is accepted verbatim. -/
theorem c3_bulk_replacement_unvalidated_witness :
    (setAlphaStops [] te0).transferFunction = [] ∧
    (setColorMap ⟨[⟨1/2, "blue"⟩], .RGB, false, none⟩ cme0).colorStops
      = sortColorStops [⟨1/2, "blue"⟩] ∧
    (setColorMap ⟨[⟨1/2, "blue"⟩], .RGB, false, none⟩ cme0).discrete
      = (⟨[⟨1/2, "blue"⟩], .RGB, false, none⟩ : ColorMapQ).discrete ∧
    (setColorMap ⟨[⟨1/2, "blue"⟩], .RGB, false, none⟩ cme0).bins
      = max (⟨[⟨1/2, "blue"⟩], .RGB, false, none⟩ : ColorMapQ).binsOrZero 0 :=
  c3_bulk_replacement_unvalidated Unit [] te0 ⟨[⟨1/2, "blue"⟩], .RGB, false, none⟩ cme0
    (by norm_num)

/-- C3 counterexample: `setAlphaStops([])` on a 3-stop editor replaces the state
with the empty collection instead of rejecting it and retaining the prior state. -/
theorem c3_counterexample :
    (setAlphaStops [] te0).transferFunction = [] ∧
    te0.transferFunction ≠ [] ∧
    ([] : List AlphaStopQ).length < 2 := by
  refine ⟨rfl, ?_, by norm_num⟩
  simp [te0]

/-- C9: `addListener(callback)` hands out `callbackCounter` as the id, registers the
callback under it, synchronously invokes the callback exactly once with the
current transfer function, and mutates nothing but the registry; when all
registered ids are below the counter (true in every reachable state), the new id
is fresh. -/
theorem c9_addListener (κ : Type) (st : TransparencyEditorState κ) (cb : κ)
    (hfresh : ∀ q ∈ st.callbacks, q.1 < st.callbackCounter) :
    (addListener cb st).2.2 = [(cb, getTransferFunction st)] ∧
    (addListener cb st).1 = st.callbackCounter ∧
    ((addListener cb st).1, cb) ∈ (addListener cb st).2.1.callbacks ∧
    (∀ q ∈ st.callbacks, q.1 ≠ (addListener cb st).1) ∧
    (addListener cb st).2.1.transferFunction = st.transferFunction ∧
    (addListener cb st).2.1.colorMap = st.colorMap ∧
    (addListener cb st).2.1.callbackCounter = st.callbackCounter + 1 := by
  refine ⟨rfl, rfl, ?_, ?_, rfl, rfl, rfl⟩
  · show (st.callbackCounter, cb) ∈ st.callbacks ++ [(st.callbackCounter, cb)]
    simp
  · intro q hq
    exact ne_of_lt (hfresh q hq)

/-- C9 witness: registering a listener on a fresh editor state invokes it once with
the current transfer function and stores it under id 0. -/
theorem c9_addListener_witness :
    (addListener () te0).2.2 = [((), getTransferFunction te0)] ∧
    (addListener () te0).1 = te0.callbackCounter ∧
    ((addListener () te0).1, ()) ∈ (addListener () te0).2.1.callbacks ∧
    (∀ q ∈ te0.callbacks, q.1 ≠ (addListener () te0).1) ∧
    (addListener () te0).2.1.transferFunction = te0.transferFunction ∧
    (addListener () te0).2.1.colorMap = te0.colorMap ∧
    (addListener () te0).2.1.callbackCounter = te0.callbackCounter + 1 :=
  c9_addListener Unit te0 () (by simp [te0])

/-- `ColorMapBin` from `Types.ts`. The `color` field is produced by feeding a
position into the d3 color range; the model records that position in `colorPos`
(`none` when the source would divide by zero, producing NaN). -/
structure ColorMapBinQ where
  lowerBound : ℚ
  center : ℚ
  upperBound : ℚ
  colorPos : Option ℚ
deriving DecidableEq

/-- The discretized position `Math.floor(value * bins) / (bins - 1)` fed into the
color range by `convert.ts`; `none` marks the division by zero the source
evaluates when `bins = 1`. -/
def binColorPos (b : ℤ) (value : ℚ) : Option ℚ :=
  if (b:ℚ) - 1 = 0 then none
  else some ((⌊value * (b:ℚ)⌋ : ℚ) / ((b:ℚ) - 1))

/-- `getColorFromColorMapAt` of `convert.ts`, tracked up to the position argument
passed into the d3 `colorRange`: on the discrete branch (taken when
`colorMap.discrete && colorMap.bins` is truthy) the position is
`Math.floor(value * bins) / (bins - 1)`; otherwise the raw value. -/
def getColorFromColorMapAtPos (cm : ColorMapQ) (value : ℚ) : Option ℚ :=
  if cm.discrete && cm.binsTruthy then binColorPos cm.binsOrZero value
  else some value

/-- The body of the `for` loop of `getColorMapBins`: bin number `i` with
`lowerBound = min + i·binSize`, `upperBound = lowerBound + binSize`, `center`
their midpoint, and the color resolved at `Math.floor(center * bins) / (bins - 1)`. -/
def mkBin (minv binSize : ℚ) (b : ℤ) (i : ℕ) : ColorMapBinQ :=
  { lowerBound := minv + (i:ℚ) * binSize,
    center := (minv + (i:ℚ) * binSize + (minv + (i:ℚ) * binSize + binSize)) / 2,
    upperBound := minv + (i:ℚ) * binSize + binSize,
    colorPos := binColorPos b
      ((minv + (i:ℚ) * binSize + (minv + (i:ℚ) * binSize + binSize)) / 2) }

/-- `getColorMapBins` of `convert.ts`: `[]` when not discrete or `bins` is falsy;
otherwise `bins` equal-width intervals over the span from the first to the last
color stop. `none` models the TypeError the source would hit reading
`colorStops[0].stop` of an empty stop list (reachable past the guard only when
stops exist). -/
def getColorMapBins (cm : ColorMapQ) : Option (List ColorMapBinQ) :=
  if !(cm.discrete && cm.binsTruthy) then some []
  else
    match cm.colorStops with
    | [] => none
    | s :: rest =>
      let minv := s.stop
      let maxv := ((s :: rest).getLast (List.cons_ne_nil s rest)).stop
      let b := cm.binsOrZero
      some ((List.range b.toNat).map (mkBin minv ((maxv - minv) / (b:ℚ)) b))

/-- `ColorMapEditor.getDiscreteColorMap()`: `getColorMapBins(this.getColorMap())`. -/
def getDiscreteColorMap (st : ColorMapEditorState) : Option (List ColorMapBinQ) :=
  getColorMapBins st.getColorMap

/-- A color map with a single discrete bin, the degenerate case of C6. -/
def cmBinsOne : ColorMapQ :=
  { colorStops := [⟨0, "black"⟩, ⟨1, "white"⟩],
    interpolationMethod := .RGB,
    discrete := true,
    bins := some 1 }

/-- C6: the claim states the intent (no divide-by-zero for one bin) and the code
violates it: with discrete = true and bins = 1 the discrete branch IS taken
(1 is truthy) and its denominator `bins - 1` IS zero, so the source evaluates
`Math.floor(value * 1) / 0` (NaN in JavaScript) instead of returning the single
well-defined representative color; `none` marks that division. -/
theorem c6_bins_one_divide_by_zero :
    (cmBinsOne.discrete && cmBinsOne.binsTruthy) = true ∧
    cmBinsOne.binsOrZero - 1 = 0 ∧
    getColorFromColorMapAtPos cmBinsOne (1/2) = none := by
  refine ⟨by decide, by decide, ?_⟩
  simp [getColorFromColorMapAtPos, cmBinsOne, binColorPos,
    ColorMapQ.binsTruthy, ColorMapQ.binsOrZero]

/-- The claim C7 example: a discrete four-bin color map over the domain [0,1]. -/
def cmFour : ColorMapQ :=
  { colorStops := [⟨0, "blue"⟩, ⟨1, "red"⟩],
    interpolationMethod := .RGB,
    discrete := true,
    bins := some 4 }

theorem getColorMapBins_cmFour :
    getColorMapBins cmFour =
      some [⟨0, 1/8, 1/4, some 0⟩, ⟨1/4, 3/8, 1/2, some (1/3)⟩,
        ⟨1/2, 5/8, 3/4, some (2/3)⟩, ⟨3/4, 7/8, 1, some 1⟩] := by
  have hr : List.range (Int.toNat 4) = [0, 1, 2, 3] := rfl
  simp only [getColorMapBins, cmFour, ColorMapQ.binsTruthy, ColorMapQ.binsOrZero,
    Option.getD_some, hr]
  norm_num [mkBin, binColorPos, ColorMapBinQ.mk.injEq]

/-- C7: `getColorMapBins` returns the empty sequence when `discrete` is false, and
for `discrete = true` with integer `bins = b ≥ 1` over stops led by `s0` it
returns exactly `b` bins with `lowerBound = min + i·(max−min)/b`,
`upperBound = lowerBound + (max−min)/b` and `center` their midpoint; in
particular four bins over [0,1] have lower bounds 0, 1/4, 1/2, 3/4 and upper
bounds 1/4, 1/2, 3/4, 1. -/
theorem c7_getColorMapBins (cm : ColorMapQ) (b : ℤ) (s0 : ColorStopQ)
    (rest : List ColorStopQ) (hd : cm.discrete = true) (hb : cm.bins = some b)
    (hb1 : 1 ≤ b) (hs : cm.colorStops = s0 :: rest) :
    (∀ cm' : ColorMapQ, cm'.discrete = false → getColorMapBins cm' = some []) ∧
    (∃ l, getColorMapBins cm = some l ∧
      l.length = b.toNat ∧
      ∀ (i : ℕ) (h : i < l.length),
        (l.get ⟨i, h⟩).lowerBound = s0.stop + (i:ℚ) *
          ((((s0 :: rest).getLast (List.cons_ne_nil s0 rest)).stop - s0.stop) / (b:ℚ)) ∧
        (l.get ⟨i, h⟩).upperBound = (l.get ⟨i, h⟩).lowerBound +
          ((((s0 :: rest).getLast (List.cons_ne_nil s0 rest)).stop - s0.stop) / (b:ℚ)) ∧
        (l.get ⟨i, h⟩).center = ((l.get ⟨i, h⟩).lowerBound + (l.get ⟨i, h⟩).upperBound) / 2) ∧
    (getColorMapBins cmFour).map (fun l =>
        (l.map ColorMapBinQ.lowerBound, l.map ColorMapBinQ.upperBound))
      = some ([0, 1/4, 1/2, 3/4], [1/4, 1/2, 3/4, 1]) := by
  refine ⟨?_, ?_, ?_⟩
  · intro cm' hd'
    simp [getColorMapBins, hd']
  · have hbt : cm.binsTruthy = true := by
      simp only [ColorMapQ.binsTruthy, hb, bne_iff_ne]
      omega
    have htruthy : (cm.discrete && cm.binsTruthy) = true := by
      rw [hd, hbt]
      rfl
    have hbz : cm.binsOrZero = b := by
      simp [ColorMapQ.binsOrZero, hb]
    have hcompute : getColorMapBins cm =
        some ((List.range b.toNat).map (mkBin s0.stop
          ((((s0 :: rest).getLast (List.cons_ne_nil s0 rest)).stop - s0.stop) / (b:ℚ)) b)) := by
      simp only [getColorMapBins, htruthy, Bool.not_true, Bool.false_eq_true,
        if_false, hs, hbz]
    refine ⟨_, hcompute, ?_, ?_⟩
    · simp
    · intro i h
      simp only [List.get_eq_getElem, List.getElem_map, List.getElem_range]
      exact ⟨rfl, rfl, rfl⟩
  · rw [getColorMapBins_cmFour]
    norm_num

/-- C7 witness: the four-bin color map over [0,1] yields 4 bins with the stated
bounds and centers. -/
theorem c7_getColorMapBins_witness :
    (∀ cm' : ColorMapQ, cm'.discrete = false → getColorMapBins cm' = some []) ∧
    (∃ l, getColorMapBins cmFour = some l ∧
      l.length = (4:ℤ).toNat ∧
      ∀ (i : ℕ) (h : i < l.length),
        (l.get ⟨i, h⟩).lowerBound = (⟨0, "blue"⟩ : ColorStopQ).stop + (i:ℚ) *
          (((((⟨0, "blue"⟩ : ColorStopQ) :: [(⟨1, "red"⟩ : ColorStopQ)]).getLast
            (List.cons_ne_nil _ _)).stop - (⟨0, "blue"⟩ : ColorStopQ).stop) / ((4:ℤ):ℚ)) ∧
        (l.get ⟨i, h⟩).upperBound = (l.get ⟨i, h⟩).lowerBound +
          (((((⟨0, "blue"⟩ : ColorStopQ) :: [(⟨1, "red"⟩ : ColorStopQ)]).getLast
            (List.cons_ne_nil _ _)).stop - (⟨0, "blue"⟩ : ColorStopQ).stop) / ((4:ℤ):ℚ)) ∧
        (l.get ⟨i, h⟩).center
          = ((l.get ⟨i, h⟩).lowerBound + (l.get ⟨i, h⟩).upperBound) / 2) ∧
    (getColorMapBins cmFour).map (fun l =>
        (l.map ColorMapBinQ.lowerBound, l.map ColorMapBinQ.upperBound))
      = some ([0, 1/4, 1/2, 3/4], [1/4, 1/2, 3/4, 1]) :=
  c7_getColorMapBins cmFour 4 ⟨0, "blue"⟩ [⟨1, "red"⟩] rfl rfl (by norm_num) rfl

/-- A discrete color map whose `bins` field is 0, reachable through
`setBins(-5)` while `discrete` stays true. -/
def cmZeroBins : ColorMapQ :=
  { colorStops := [⟨0, "green"⟩, ⟨1, "red"⟩],
    interpolationMethod := .RGB,
    discrete := true,
    bins := some 0 }

/-- A discrete color-map-editor state used by the C10 witness. -/
def cmeD : ColorMapEditorState :=
  { colorStops := [⟨0, "green"⟩, ⟨1, "red"⟩],
    interpolationMethod := .RGB,
    discrete := true,
    bins := 7 }

/-- C10 (amended): with `discrete = true` and `bins` 0 or undefined,
`getColorMapBins` returns the empty array — no error, no bin arithmetic —
(for `bins = 0` the 0-length result trivially equals the `bins` field, for
undefined `bins` there is no numeric field to match); the state is reachable
through the public interface because `setBins` clamps with `Math.max(bins, 0)`
and so admits `bins = 0` while `discrete` stays true. -/
theorem c10_zero_bins (cm : ColorMapQ) (st : ColorMapEditorState) (b : ℤ)
    (hcm : cm.discrete = true) (hb : cm.bins = some 0 ∨ cm.bins = none)
    (hst : st.discrete = true) (hble : b ≤ 0) :
    getColorMapBins cm = some [] ∧
    (setBins b st).bins = 0 ∧
    (setBins b st).discrete = true ∧
    (setBins b st).getColorMap.bins = some 0 ∧
    getDiscreteColorMap (setBins b st) = some [] := by
  have htr : cm.binsTruthy = false := by
    rcases hb with h | h <;> simp [ColorMapQ.binsTruthy, h]
  have hmax : max b 0 = 0 := max_eq_right hble
  have hb0 : (setBins b st).bins = 0 := by
    simp only [setBins, hmax]
  have hd : (setBins b st).discrete = true := hst
  have hcmbins : (setBins b st).getColorMap.bins = some 0 := by
    simp only [ColorMapEditorState.getColorMap, hb0, hd, if_true]
  refine ⟨?_, hb0, hd, hcmbins, ?_⟩
  · simp [getColorMapBins, htr]
  · have htr' : (setBins b st).getColorMap.binsTruthy = false := by
      simp [ColorMapQ.binsTruthy, hcmbins]
    simp [getDiscreteColorMap, getColorMapBins, htr']

/-- C10 witness: `setBins(-5)` on a discrete editor yields `bins = 0` and an empty
`getDiscreteColorMap`, and the zero-bin color map record produces no bins. -/
theorem c10_zero_bins_witness :
    getColorMapBins cmZeroBins = some [] ∧
    (setBins (-5) cmeD).bins = 0 ∧
    (setBins (-5) cmeD).discrete = true ∧
    (setBins (-5) cmeD).getColorMap.bins = some 0 ∧
    getDiscreteColorMap (setBins (-5) cmeD) = some [] :=
  c10_zero_bins cmZeroBins cmeD (-5) rfl (Or.inl rfl) rfl (by norm_num)

/-- C10 counterexample: for `bins = 0` (not undefined) the returned empty sequence
has length 0, which EQUALS the `bins` field 0 — refuting the claim's clause that
the length of the returned sequence differs from the `bins` field in this case. -/
theorem c10_counterexample :
    getColorMapBins cmZeroBins = some [] ∧
    cmZeroBins.bins = some 0 ∧
    (([] : List ColorMapBinQ).length : ℤ) = 0 := by
  refine ⟨?_, rfl, rfl⟩
  simp [getColorMapBins, cmZeroBins, ColorMapQ.binsTruthy]

/-- `d3.interpolateNumber(a, b)(t) = a * (1 - t) + b * t`, the interpolator used by
`getAlpha`. -/
def interpolateNumber (a b t : ℚ) : ℚ := a * (1 - t) + b * t

/-- The scan loop of `TransparencyEditor.getAlpha` in `TransferFunctionEditor.ts`:
walks the control points carrying the previous point (`cp1`); an exact positional
hit returns that point's alpha; the first point to the right of `stop` closes the
bracket and interpolates; if the bracket is incomplete (position left of the
first stop, or right of every stop) the source throws — modelled as `none`. -/
def getAlphaAux (p : ℚ) : Option AlphaStopQ → List AlphaStopQ → Option ℚ
  | _, [] => none
  | cp1, c :: rest =>
    if c.stop = p then some c.alpha
    else if p < c.stop then
      match cp1 with
      | none => none
      | some c1 =>
        some (interpolateNumber c1.alpha c.alpha ((p - c1.stop) / (c.stop - c1.stop)))
    else getAlphaAux p (some c) rest

/-- `TransparencyEditor.getAlpha(stop)` of `TransferFunctionEditor.ts`. -/
def getAlpha (l : List AlphaStopQ) (p : ℚ) : Option ℚ :=
  getAlphaAux p none l

theorem getAlphaAux_none_of_forall_lt (p : ℚ) :
    ∀ (l : List AlphaStopQ) (prev : Option AlphaStopQ),
      (∀ x ∈ l, x.stop < p) → getAlphaAux p prev l = none
  | [], _, _ => rfl
  | c :: rest, prev, h => by
    have hc : c.stop < p := h c (List.mem_cons_self c rest)
    simp only [getAlphaAux]
    rw [if_neg (ne_of_lt hc), if_neg (not_lt.mpr hc.le)]
    exact getAlphaAux_none_of_forall_lt p rest (some c)
      (fun x hx => h x (List.mem_cons_of_mem c hx))

theorem getAlphaAux_bracket (p : ℚ) (c1 c2 : AlphaStopQ) (l₂ : List AlphaStopQ)
    (prev : Option AlphaStopQ) (h1 : c1.stop < p) (h2 : p < c2.stop) :
    getAlphaAux p prev (c1 :: c2 :: l₂) =
      some (interpolateNumber c1.alpha c2.alpha ((p - c1.stop) / (c2.stop - c1.stop))) := by
  simp only [getAlphaAux]
  rw [if_neg (ne_of_lt h1), if_neg (not_lt.mpr h1.le),
    if_neg (ne_of_gt h2), if_pos h2]

theorem getAlphaAux_append_bracket (p : ℚ) (c1 c2 : AlphaStopQ) (l₂ : List AlphaStopQ)
    (h1 : c1.stop < p) (h2 : p < c2.stop) :
    ∀ (l₁ : List AlphaStopQ) (prev : Option AlphaStopQ), (∀ x ∈ l₁, x.stop < p) →
      getAlphaAux p prev (l₁ ++ c1 :: c2 :: l₂) =
        some (interpolateNumber c1.alpha c2.alpha ((p - c1.stop) / (c2.stop - c1.stop)))
  | [], prev, _ => getAlphaAux_bracket p c1 c2 l₂ prev h1 h2
  | c :: t, prev, h => by
    have hc : c.stop < p := h c (List.mem_cons_self c t)
    simp only [List.cons_append, getAlphaAux]
    rw [if_neg (ne_of_lt hc), if_neg (not_lt.mpr hc.le)]
    exact getAlphaAux_append_bracket p c1 c2 l₂ h1 h2 t (some c)
      (fun x hx => h x (List.mem_cons_of_mem c hx))

/-- C5 (amended): for a position strictly inside a segment — every stop before the
bracket lies left of `p`, and `p` falls strictly between the bracketing pair —
`getAlpha` returns the piecewise-linear interpolation of the bracketing stops'
alpha values. Outside the stop span, however, the source does NOT clamp to the
boundary stop's alpha: when `p` lies right of every stop, or left of the first
stop, `getAlpha` throws ("Parameter 'stop' is not in the range [0, 1]!"),
modelled as `none`. (The d3-scale-backed variant in the other source files
extrapolates linearly outside the domain; no variant clamps.) -/
theorem c5_getAlpha_sampling (l₁ l₂ : List AlphaStopQ) (c1 c2 : AlphaStopQ) (p : ℚ)
    (hpre : ∀ x ∈ l₁, x.stop < p) (h1 : c1.stop < p) (h2 : p < c2.stop) :
    getAlpha (l₁ ++ c1 :: c2 :: l₂) p
      = some (interpolateNumber c1.alpha c2.alpha ((p - c1.stop) / (c2.stop - c1.stop))) ∧
    (∀ l : List AlphaStopQ, (∀ x ∈ l, x.stop < p) → getAlpha l p = none) ∧
    (∀ (c : AlphaStopQ) (rest : List AlphaStopQ), p < c.stop →
      getAlpha (c :: rest) p = none) := by
  refine ⟨?_, ?_, ?_⟩
  · exact getAlphaAux_append_bracket p c1 c2 l₂ h1 h2 l₁ none hpre
  · intro l hl
    exact getAlphaAux_none_of_forall_lt p l none hl
  · intro c rest hc
    show getAlphaAux p none (c :: rest) = none
    simp only [getAlphaAux]
    rw [if_neg (ne_of_gt hc), if_pos hc]

/-- C5 witness: sampling [(0,1),(1,0)] at 0.5 interpolates to 0.5, while positions
right of every stop or left of the first stop yield the thrown error (`none`). -/
theorem c5_getAlpha_sampling_witness :
    getAlpha ([] ++ (⟨0,1⟩ : AlphaStopQ) :: (⟨1,0⟩ : AlphaStopQ) :: []) (1/2)
      = some (interpolateNumber 1 0 (((1:ℚ)/2 - 0) / (1 - 0))) ∧
    (∀ l : List AlphaStopQ, (∀ x ∈ l, x.stop < (1:ℚ)/2) → getAlpha l (1/2) = none) ∧
    (∀ (c : AlphaStopQ) (rest : List AlphaStopQ), (1:ℚ)/2 < c.stop →
      getAlpha (c :: rest) (1/2) = none) :=
  c5_getAlpha_sampling [] [] ⟨0,1⟩ ⟨1,0⟩ (1/2) (by simp) (by norm_num) (by norm_num)

/-- C5 counterexample: sampling at position 2, outside the span [0,1] of the stops,
does not return the nearest boundary alpha 0 — the call fails (throws). -/
theorem c5_counterexample :
    getAlpha [⟨0,1⟩, ⟨1,0⟩] 2 = none ∧
    getAlpha [⟨0,1⟩, ⟨1,0⟩] 2 ≠ some 0 := by
  have h : getAlpha [⟨0,1⟩, ⟨1,0⟩] 2 = none := by
    norm_num [getAlpha, getAlphaAux]
  exact ⟨h, by rw [h]; exact fun hcon => Option.noConfusion hcon⟩
